import Mathlib

/-!
Verification of the graph-assembly front-end of webnn-native
(`src/webnn_native/GraphBuilder.cpp`, `src/webnn_native/Operand.cpp`,
`src/webnn_native/ops/Unary.cpp`).

The development shallowly embeds the code:

* operators are identified by natural numbers; a graph is a function
  `g : Nat → List Nat` sending an operator to the list of operators that
  produce its inputs, in the order of `Inputs()` (the C++ traversal only
  ever looks at `dep->Operator()` of each input operand);
* `TopologicalSort` is the iterative explicit-stack traversal of
  `GraphBuilderBase::TopologicalSort`, written with an explicit fuel since
  the C++ loop does not terminate on cyclic graphs;
* the builder data model (`Operand`, `OperatorNode`, `BuilderState`) embeds
  `OperandBase` (Operand.cpp), the `DAWN_VALIDATE` /
  `VALIDATE_FOR_OPERAND` protocol, the clamp fusion rewrite of
  `GraphBuilderBase::Conv2d` / `GraphBuilderBase::BatchNorm`, the softmax
  gate of `Unary::Validate`, and `GraphBuilderBase::Build`.
-/


/-! ## Definitions -/

/-- State of the iterative traversal in `GraphBuilderBase::TopologicalSort`:
`nodesToDo` is the explicit stack (head = top), `nodesDone` the
visited/finalized marker set, `result` the output sequence. -/
structure SortState where
  nodesToDo : List Nat
  nodesDone : List Nat
  result : List Nat
deriving Repr, DecidableEq

/-- One iteration of the `while (nodesToDo.size() > 0)` loop of
`GraphBuilderBase::TopologicalSort`: inspect the top of the stack; if it is
already finalized, pop it; otherwise push every not-yet-finalized
input-producing operator (in `Inputs()` order, so the last listed ends on
top), and when all producers are finalized, emit the node, mark it and pop.
On an empty stack the state is returned unchanged. -/
def topoStep (g : Nat → List Nat) (s : SortState) : SortState :=
  match s.nodesToDo with
  | [] => s
  | node :: rest =>
    if node ∈ s.nodesDone then
      { s with nodesToDo := rest }
    else if (g node).filter (fun d => decide (d ∉ s.nodesDone)) = [] then
      { nodesToDo := rest
        nodesDone := node :: s.nodesDone
        result := s.result ++ [node] }
    else
      { s with nodesToDo :=
          ((g node).filter (fun d => decide (d ∉ s.nodesDone))).reverse ++ s.nodesToDo }

/-- The traversal loop, with explicit fuel: `none` models the C++ loop
running forever (which only happens on cyclic graphs). -/
def topoLoop (g : Nat → List Nat) : Nat → SortState → Option SortState
  | 0, s => if s.nodesToDo = [] then some s else none
  | fuel + 1, s =>
    if s.nodesToDo = [] then some s else topoLoop g fuel (topoStep g s)

/-- `GraphBuilderBase::TopologicalSort`: the root operands' producing
operators are pushed in list order (so the stack, head = top, is the
reversed root list), then the loop runs to completion. -/
def TopologicalSort (g : Nat → List Nat) (roots : List Nat) (fuel : Nat) :
    Option (List Nat) :=
  (topoLoop g fuel { nodesToDo := roots.reverse, nodesDone := [], result := [] }).map
    (fun s => s.result)

/-- Operators reachable from the terminal (root) operators by repeatedly
moving to input-producing operators. -/
inductive Reach (g : Nat → List Nat) (roots : List Nat) : Nat → Prop where
  | root (r : Nat) (hr : r ∈ roots) : Reach g roots r
  | step (n d : Nat) (hn : Reach g roots n) (hd : d ∈ g n) : Reach g roots d

/-- A graph together with a level function witnessing acyclicity: every
input-producing operator sits at a strictly smaller level. -/
def Acyclic (g : Nat → List Nat) (lvl : Nat → Nat) : Prop :=
  ∀ n d, d ∈ g n → lvl d < lvl n

/-- The example graph used as a concrete witness: operator 2 consumes the
outputs of operators 0 and 1 (listed in this order in `Inputs()`); 0 and 1
have no inputs. -/
def exampleGraph : Nat → List Nat :=
  fun n => if n = 2 then [0, 1] else []

/-- `Steps g s t`: the traversal transforms state `s` into state `t` in some
finite number of loop iterations. -/
def Steps (g : Nat → List Nat) (s t : SortState) : Prop :=
  ∃ j : Nat, (topoStep g)^[j] s = t

/-- The invariant maintained by every iteration of the traversal loop:
finalized nodes are exactly the emitted ones (without duplicates), their
input producers are finalized, every emitted node follows all its input
producers in the output, everything on the stack or finalized is reachable
from the roots, and every root is finalized or still on the stack. -/
structure SortInv (g : Nat → List Nat) (roots : List Nat) (s : SortState) : Prop where
  done_closed : ∀ n ∈ s.nodesDone, ∀ d ∈ g n, d ∈ s.nodesDone
  done_result : ∀ x, x ∈ s.nodesDone ↔ x ∈ s.result
  result_nodup : s.result.Nodup
  result_sorted : ∀ l1 n l2, s.result = l1 ++ n :: l2 → ∀ d ∈ g n, d ∈ l1
  todo_reach : ∀ x ∈ s.nodesToDo, Reach g roots x
  done_reach : ∀ x ∈ s.nodesDone, Reach g roots x
  roots_covered : ∀ r ∈ roots, r ∈ s.nodesDone ∨ r ∈ s.nodesToDo

/-- `ProcOne g x done result done2 result2`: from any state whose stack has
`x` on top, the traversal eventually removes `x` (having processed its whole
input subtree), leaving the rest of the stack untouched, with finalized set
`done2` and output `result2` — uniformly in the rest of the stack. -/
def ProcOne (g : Nat → List Nat) (x : Nat) (done result done2 result2 : List Nat) : Prop :=
  ∀ rest, Steps g ⟨x :: rest, done, result⟩ ⟨rest, done2, result2⟩

/-- `y` is reachable from `x` alone. -/
def ReachFrom (g : Nat → List Nat) (x y : Nat) : Prop :=
  Reach g [x] y

/-- Provenance invariant for a run started with `x` alone on the stack over
finalized set `done0`: everything that becomes finalized was already
finalized or is reachable from `x`, and everything on the stack is reachable
from `x`. -/
def ProvInv (g : Nat → List Nat) (x : Nat) (done0 : List Nat) (s : SortState) : Prop :=
  (∀ y ∈ s.nodesDone, y ∈ done0 ∨ ReachFrom g x y) ∧ (∀ z ∈ s.nodesToDo, ReachFrom g x z)

/-- `Phases g S done result d r`: the entries of `S` are processed from the
head onwards, each phase removing one entry from the stack, uniformly in
whatever lies below them. -/
inductive Phases (g : Nat → List Nat) :
    List Nat → List Nat → List Nat → List Nat → List Nat → Prop where
  | nil (done result : List Nat) : Phases g [] done result done result
  | cons {x : Nat} {S done result d1 r1 d2 r2 : List Nat} :
      ProcOne g x done result d1 r1 → Phases g S d1 r1 d2 r2 →
      Phases g (x :: S) done result d2 r2

/-- Deduplication keeping the first occurrence, relative to a set of
elements already seen. Processing a stack list is insensitive to
occurrences this function removes. -/
def dedupKeepFirst (seen : List Nat) : List Nat → List Nat
  | [] => []
  | x :: S =>
    if x ∈ seen then dedupKeepFirst seen S else x :: dedupKeepFirst (x :: seen) S

/-- `DupPad seen S T`: `T` is `S` with extra occurrences interleaved, each
extra occurrence being an element that already occurred earlier in `T` (or
was in `seen` to begin with). -/
inductive DupPad : List Nat → List Nat → List Nat → Prop where
  | nil (seen : List Nat) : DupPad seen [] []
  | cons (seen : List Nat) (x : Nat) (S T : List Nat) :
      DupPad (x :: seen) S T → DupPad seen (x :: S) (x :: T)
  | pad (seen : List Nat) (y : Nat) (S T : List Nat) :
      y ∈ seen → DupPad seen S T → DupPad seen S (y :: T)

/-- Element types of `ml::OperandType`. -/
inductive MLOperandType where
  | Float32
  | Float16
  | Int32
  | Uint32
deriving Repr, DecidableEq

/-- `ClampOptions`: the clamp bounds. The C++ stores floating-point bounds;
only their identity matters to the claims, so they are carried as opaque
integer codes. -/
structure ClampOptions where
  minValue : Int
  maxValue : Int
deriving Repr, DecidableEq

/-- The `FusedOperator` tags reported by `GetFusedOperator()`. -/
inductive FusedOperator where
  | None
  | Relu
  | Sigmoid
  | HardSwish
  | LeakyRelu
  | Clamp
deriving Repr, DecidableEq

/-- The unary operator kinds constructed in GraphBuilder.cpp. -/
inductive UnaryOpType where
  | kRelu
  | kHardSwish
  | kSigmoid
  | kSoftmax
  | kTanh
deriving Repr, DecidableEq

/-- The binary operator kinds constructed in GraphBuilder.cpp. -/
inductive BinaryOpType where
  | kMatMul
  | kAdd
  | kDiv
  | kMul
  | kSub
  | kMax
  | kMin
  | kPower
deriving Repr, DecidableEq

/-- A fused-activation operator handle, as produced by the builder's
`...Operator()` entry points and stored in `options->activation`. -/
inductive Activation where
  | relu
  | sigmoid
  | hardSwish
  | leakyRelu (alpha : Int)
  | clamp (options : ClampOptions)
deriving Repr, DecidableEq

/-- `OperatorBase::GetFusedOperator()` of an activation handle. -/
def Activation.getFusedOperator : Activation → FusedOperator
  | .relu => .Relu
  | .sigmoid => .Sigmoid
  | .hardSwish => .HardSwish
  | .leakyRelu _ => .LeakyRelu
  | .clamp _ => .Clamp

/-- The `reinterpret_cast<op::Clamp*>(options->activation)->GetOptions()`
read; only performed after `GetFusedOperator() == FusedOperator::Clamp`. -/
def Activation.getClampOptions : Activation → ClampOptions
  | .clamp o => o
  | _ => ⟨0, 0⟩

/-- The operator kinds needed by the claims; `conv2d` and `batchNorm` record
the optional activation handle they were constructed with, `clamp` its
options. -/
inductive OpKind where
  | input
  | constant
  | binary (t : BinaryOpType)
  | unary (t : UnaryOpType)
  | conv2d (activation : Option Activation)
  | batchNorm (activation : Option Activation)
  | clamp (options : ClampOptions)
deriving Repr, DecidableEq

def OpKind.isClampKind : OpKind → Bool
  | OpKind.clamp _ => true
  | _ => false

/-- `OperandBase`: records the producing operator (`none` only for the bare
`OperandBase::MakeError` sentinel, whose `mOperator` member stays null),
element type, rank and error flag. -/
structure Operand where
  producer : Option Nat
  type : MLOperandType
  rank : Nat
  isError : Bool
deriving Repr, DecidableEq

/-- `OperandBase::MakeError` (Operand.cpp): an error-tagged operand with no
producing operator; the C++ leaves type and rank uninitialized, so the model
fixes them arbitrarily and no theorem depends on them. -/
def Operand.makeError : Operand :=
  { producer := none, type := MLOperandType.Float32, rank := 0, isError := true }

/-- `OperandBase::OperandBase` (Operand.cpp:24): the output operand's type
and rank default to `ml::OperandType::Float32` and 0, and are overwritten
with the type and rank of the operator's first input when the operator has
at least one input. -/
def mkOperandAttrs (inputs : List Operand) : MLOperandType × Nat :=
  match inputs with
  | [] => (MLOperandType.Float32, 0)
  | primary :: _ => (primary.type, primary.rank)

/-- An operator node as stored by the builder: kind, stored input operands,
error flag. -/
structure OperatorNode where
  kind : OpKind
  inputs : List Operand
  isError : Bool
deriving Repr, DecidableEq

/-- Modelled from the spec: `OperatorBase` construction (Operator.cpp is not
under src/). "Any operator built from an error operand is itself constructed
as an error instance with no further attribute computation" — an error
instance stores no inputs and carries the error flag, so base validation
passes on it vacuously and the error is only surfaced at finalization. -/
def mkNode (kind : OpKind) (inputs : List Operand) : OperatorNode :=
  if inputs.any (fun i => i.isError) then
    { kind := kind, inputs := [], isError := true }
  else
    { kind := kind, inputs := inputs, isError := false }

/-- `PrimaryOutput()`: the operand produced by the operator with id `opId`;
its attributes follow `OperandBase::OperandBase` (Operand.cpp), and it
carries the operator's error flag. -/
def primaryOutput (opId : Nat) (node : OperatorNode) : Operand :=
  { producer := some opId
    type := (mkOperandAttrs node.inputs).1
    rank := (mkOperandAttrs node.inputs).2
    isError := node.isError }

/-- Modelled from the spec: base validation (`OperatorBase::Validate`,
Operator.cpp is not under src/): "inputs must all be non-error operands
belonging to the same graph-building session". Returns the error message on
failure, like `MaybeError`. -/
def baseValidate (node : OperatorNode) : Option String :=
  if node.inputs.any (fun i => i.isError) then some "Argument inputs are invalid."
  else none

/-- `Unary::Validate` (ops/Unary.cpp:22): run base validation first and
propagate its error; then an operator of softmax type requires its input
operand to have rank exactly 2, failing with the descriptive message
otherwise. -/
def unaryValidate (t : UnaryOpType) (node : OperatorNode) : Option String :=
  match baseValidate node with
  | some e => some e
  | none =>
    match t, node.inputs with
    | UnaryOpType.kSoftmax, input :: _ =>
      if input.rank ≠ 2 then some "Input dimensions is incorrect." else none
    | _, _ => none

/-- The `Validate()` virtual dispatch. The softmax gate is the only
kind-specific check under src/; the other kinds' shape checks are out of
this core's scope (spec §1) and modelled from the spec as base validation
only. -/
def validateNode (node : OperatorNode) : Option String :=
  match node.kind with
  | OpKind.unary t => unaryValidate t node
  | _ => baseValidate node

/-- The builder's arena of constructed operators; an operator's id is its
index in construction order. -/
structure BuilderState where
  ops : List OperatorNode
deriving Repr, DecidableEq

/-- `VALIDATE_FOR_OPERAND(new op::...(...))` with `DAWN_VALIDATE`
(GraphBuilder.cpp:50): construct the operator, validate it through
`Context::ConsumedError`; on failure release it and return
`OperandBase::MakeError`; on success keep it and return its primary
output. -/
def validateForOperand (σ : BuilderState) (kind : OpKind) (inputs : List Operand) :
    BuilderState × Operand :=
  let node := mkNode kind inputs
  match validateNode node with
  | some _ => (σ, Operand.makeError)
  | none => ({ ops := σ.ops ++ [node] }, primaryOutput σ.ops.length node)

/-- `Conv2dOptions`: only the optional fused-activation handle influences
this core; the geometric fields are irrelevant to the claims. -/
structure Conv2dOptions where
  activation : Option Activation
deriving Repr, DecidableEq

/-- `BatchNormOptions`: only the optional fused-activation handle influences
this core. -/
structure BatchNormOptions where
  activation : Option Activation
deriving Repr, DecidableEq

/-- `GraphBuilderBase::Relu` (GraphBuilder.cpp:150). -/
def GraphBuilder.relu (σ : BuilderState) (input : Operand) : BuilderState × Operand :=
  validateForOperand σ (OpKind.unary UnaryOpType.kRelu) [input]

/-- `GraphBuilderBase::Softmax` (GraphBuilder.cpp:186). -/
def GraphBuilder.softmax (σ : BuilderState) (input : Operand) : BuilderState × Operand :=
  validateForOperand σ (OpKind.unary UnaryOpType.kSoftmax) [input]

/-- `GraphBuilderBase::Matmul` (GraphBuilder.cpp:82). -/
def GraphBuilder.matmul (σ : BuilderState) (a b : Operand) : BuilderState × Operand :=
  validateForOperand σ (OpKind.binary BinaryOpType.kMatMul) [a, b]

/-- `GraphBuilderBase::Clamp` (GraphBuilder.cpp:234). -/
def GraphBuilder.clamp (σ : BuilderState) (input : Operand) (options : ClampOptions) :
    BuilderState × Operand :=
  validateForOperand σ (OpKind.clamp options) [input]

/-- Modelled from the spec: `op::Input` (ops/Input.cpp is not under src/), a
zero-input operator whose validation sets the output type and rank from the
caller's descriptor. -/
def GraphBuilder.inputOp (σ : BuilderState) (type : MLOperandType) (rank : Nat) :
    BuilderState × Operand :=
  ({ ops := σ.ops ++ [{ kind := OpKind.input, inputs := [], isError := false }] },
    { producer := some σ.ops.length, type := type, rank := rank, isError := false })

/-- `GraphBuilderBase::Conv2d` (GraphBuilder.cpp:114): when the options
carry an activation whose fused-operator tag is `Clamp`, the conv2d is
constructed and validated on its own; on failure an error operand is
returned; on success an explicit clamp operator consuming the conv2d's
primary output is constructed from the clamp's own options and its output
is returned. Every other case falls through to the single
`VALIDATE_FOR_OPERAND(new op::Conv2d(this, input, filter, options))`. -/
def GraphBuilder.conv2d (σ : BuilderState) (input filter : Operand)
    (options : Option Conv2dOptions) : BuilderState × Operand :=
  match options with
  | some opts =>
    match opts.activation with
    | some act =>
      if act.getFusedOperator = FusedOperator.Clamp then
        let conv := mkNode (OpKind.conv2d (some act)) [input, filter]
        match validateNode conv with
        | some _ => (σ, Operand.makeError)
        | none =>
          validateForOperand { ops := σ.ops ++ [conv] }
            (OpKind.clamp act.getClampOptions) [primaryOutput σ.ops.length conv]
      else
        validateForOperand σ (OpKind.conv2d (some act)) [input, filter]
    | none => validateForOperand σ (OpKind.conv2d none) [input, filter]
  | none => validateForOperand σ (OpKind.conv2d none) [input, filter]

/-- `GraphBuilderBase::BatchNorm` (GraphBuilder.cpp:242): same clamp
rewrite as `Conv2d`, applied to the batch-norm operator with inputs
`input, mean, variance`. -/
def GraphBuilder.batchNorm (σ : BuilderState) (input mean variance : Operand)
    (options : Option BatchNormOptions) : BuilderState × Operand :=
  match options with
  | some opts =>
    match opts.activation with
    | some act =>
      if act.getFusedOperator = FusedOperator.Clamp then
        let bn := mkNode (OpKind.batchNorm (some act)) [input, mean, variance]
        match validateNode bn with
        | some _ => (σ, Operand.makeError)
        | none =>
          validateForOperand { ops := σ.ops ++ [bn] }
            (OpKind.clamp act.getClampOptions) [primaryOutput σ.ops.length bn]
      else
        validateForOperand σ (OpKind.batchNorm (some act)) [input, mean, variance]
    | none => validateForOperand σ (OpKind.batchNorm none) [input, mean, variance]
  | none => validateForOperand σ (OpKind.batchNorm none) [input, mean, variance]

/-- The calls `Build` makes across the backend boundary, in order. -/
inductive BackendCall where
  | createGraph
  | addToGraph (opId : Nat)
  | addOutput (name : String)
  | finish
  | compile
deriving Repr, DecidableEq

def defaultNode : OperatorNode :=
  { kind := OpKind.input, inputs := [], isError := false }

/-- The operator stored at index `i` of the arena. -/
def nodeAt (σ : BuilderState) (i : Nat) : OperatorNode :=
  σ.ops.getD i defaultNode

/-- The producer graph of a builder state: operator id ↦ ids of the
operators producing its inputs, in `Inputs()` order. An input operand with
no producer (a bare `MakeError` sentinel) would be a null-pointer
dereference in the C++ source, so the model drops it; the `Build` theorems
only constrain states in which this does not occur. -/
def graphOf (σ : BuilderState) : Nat → List Nat :=
  fun i => (nodeAt σ i).inputs.filterMap (fun o => o.producer)

/-- The `for (auto& op : sorted_operands)` loop of `Build`
(GraphBuilder.cpp:295): add operators to the backend graph in sorted order,
aborting at the first operator in error state. Returns whether the loop
completed, and the ids that were added. -/
def addAllOps (σ : BuilderState) : List Nat → Bool × List Nat
  | [] => (true, [])
  | i :: rest =>
    if (nodeAt σ i).isError then (false, [])
    else
      let r := addAllOps σ rest
      (r.1, i :: r.2)

/-- `GraphBuilderBase::Build` (GraphBuilder.cpp:279): abort when the builder
itself is an error object, or when the named-output set is empty — both
before any backend interaction; otherwise sort the named outputs'
producers, create the backend graph, add each sorted operator (aborting on
an operator in error state), register the named outputs, finish and
compile. `none` models the C++ `nullptr` result; the second component
records the backend calls made, in order. The `addToGraph`, `addOutput`,
`finish` and `compile` collaborator calls are modelled as succeeding (their
failure modes are backend-specific and out of this core's scope). -/
def GraphBuilder.build (σ : BuilderState) (builderIsError : Bool)
    (named : List (String × Operand)) (fuel : Nat) :
    Option Unit × List BackendCall :=
  if builderIsError then (none, [])
  else if named = [] then (none, [])
  else
    match TopologicalSort (graphOf σ)
        ((named.map (fun p => p.2)).filterMap (fun o => o.producer)) fuel with
    | none => (none, [])
    | some sorted =>
      let added := addAllOps σ sorted
      if added.1 then
        (some (), BackendCall.createGraph :: added.2.map BackendCall.addToGraph
          ++ named.map (fun p => BackendCall.addOutput p.1)
          ++ [BackendCall.finish, BackendCall.compile])
      else
        (none, BackendCall.createGraph :: added.2.map BackendCall.addToGraph)

/-- A concrete non-error rank-4 Float32 operand, used by witnesses. -/
def wOperand (i : Nat) : Operand :=
  { producer := some i, type := MLOperandType.Float32, rank := 4, isError := false }

/-! ## Theorems -/

example : TopologicalSort exampleGraph [2] 10 = some [1, 0, 2] := by rfl

example : TopologicalSort exampleGraph [2, 2] 10 = some [1, 0, 2] := by rfl

example : TopologicalSort exampleGraph [0, 2] 10 = some [1, 0, 2] := by rfl

example : TopologicalSort exampleGraph [2, 0] 10 = some [0, 1, 2] := by rfl

theorem exampleGraph_acyclic : Acyclic exampleGraph (fun k => k) := by
  intro n d hd
  simp only [exampleGraph] at hd
  by_cases hn : n = 2
  · subst hn
    rw [if_pos rfl] at hd
    rcases List.mem_cons.mp hd with rfl | hd
    · exact Nat.zero_lt_two
    · rw [List.mem_singleton.mp hd]
      exact Nat.one_lt_two
  · rw [if_neg hn] at hd
    exact absurd hd (List.not_mem_nil d)

theorem topoStep_nil (g : Nat → List Nat) (done result : List Nat) :
    topoStep g ⟨[], done, result⟩ = ⟨[], done, result⟩ := rfl

theorem topoStep_of_done {g : Nat → List Nat} {node : Nat} {rest done result : List Nat}
    (h : node ∈ done) :
    topoStep g ⟨node :: rest, done, result⟩ = ⟨rest, done, result⟩ := by
  simp [topoStep, h]

theorem topoStep_of_add {g : Nat → List Nat} {node : Nat} {rest done result : List Nat}
    (h1 : node ∉ done)
    (h2 : (g node).filter (fun d => decide (d ∉ done)) = []) :
    topoStep g ⟨node :: rest, done, result⟩ = ⟨rest, node :: done, result ++ [node]⟩ := by
  simp [topoStep, h1, h2]
  intro x hx
  by_contra hxd
  have hmem : x ∈ (g node).filter (fun d => decide (d ∉ done)) := by
    rw [List.mem_filter]
    exact ⟨hx, by simpa using hxd⟩
  rw [h2] at hmem
  exact absurd hmem (List.not_mem_nil x)

theorem topoStep_of_push {g : Nat → List Nat} {node : Nat} {rest done result : List Nat}
    (h1 : node ∉ done)
    (h2 : (g node).filter (fun d => decide (d ∉ done)) ≠ []) :
    topoStep g ⟨node :: rest, done, result⟩ =
      ⟨((g node).filter (fun d => decide (d ∉ done))).reverse ++ node :: rest, done, result⟩ := by
  simp [topoStep, h1, h2]
  rcases List.exists_mem_of_ne_nil _ h2 with ⟨x, hx⟩
  rw [List.mem_filter] at hx
  exact ⟨x, hx.1, by simpa using hx.2⟩

theorem topoStep_empty_of_empty {g : Nat → List Nat} {s : SortState}
    (h : s.nodesToDo = []) : topoStep g s = s := by
  rcases s with ⟨todo, done, result⟩
  cases h
  rfl

theorem Steps.refl (g : Nat → List Nat) (s : SortState) : Steps g s s :=
  ⟨0, rfl⟩

theorem Steps.single {g : Nat → List Nat} {s t : SortState} (h : topoStep g s = t) :
    Steps g s t :=
  ⟨1, h⟩

theorem Steps.trans {g : Nat → List Nat} {s t u : SortState}
    (h1 : Steps g s t) (h2 : Steps g t u) : Steps g s u := by
  rcases h1 with ⟨j1, rfl⟩
  rcases h2 with ⟨j2, rfl⟩
  exact ⟨j2 + j1, by rw [Function.iterate_add_apply]⟩

theorem iterate_of_empty {g : Nat → List Nat} {s : SortState} (h : s.nodesToDo = []) :
    ∀ j, (topoStep g)^[j] s = s := by
  intro j
  induction j with
  | zero => rfl
  | succ j ih => rw [Function.iterate_succ_apply, topoStep_empty_of_empty h, ih]

/-- Once the stack is empty, the final state is uniquely determined:
two terminating runs from the same state end in the same state. -/
theorem steps_empty_unique {g : Nat → List Nat} {s t1 t2 : SortState}
    (h1 : Steps g s t1) (h2 : Steps g s t2)
    (e1 : t1.nodesToDo = []) (e2 : t2.nodesToDo = []) : t1 = t2 := by
  rcases h1 with ⟨j1, rfl⟩
  rcases h2 with ⟨j2, rfl⟩
  rcases Nat.le_total j1 j2 with h | h
  · have : (topoStep g)^[j2] s = (topoStep g)^[j2 - j1] ((topoStep g)^[j1] s) := by
      rw [← Function.iterate_add_apply, Nat.sub_add_cancel h]
    rw [this, iterate_of_empty e1]
  · have : (topoStep g)^[j1] s = (topoStep g)^[j1 - j2] ((topoStep g)^[j2] s) := by
      rw [← Function.iterate_add_apply, Nat.sub_add_cancel h]
    rw [this, iterate_of_empty e2]

theorem nodesDone_subset_topoStep (g : Nat → List Nat) (s : SortState) :
    s.nodesDone ⊆ (topoStep g s).nodesDone := by
  rcases s with ⟨todo, done, result⟩
  cases todo with
  | nil =>
    rw [topoStep_nil]
    exact fun x hx => hx
  | cons node rest =>
    by_cases h1 : node ∈ done
    · rw [topoStep_of_done h1]
      exact fun x hx => hx
    · by_cases h2 : (g node).filter (fun d => decide (d ∉ done)) = []
      · rw [topoStep_of_add h1 h2]
        exact List.subset_cons_self node done
      · rw [topoStep_of_push h1 h2]
        exact fun x hx => hx

theorem nodesDone_subset_steps {g : Nat → List Nat} {s t : SortState}
    (h : Steps g s t) : s.nodesDone ⊆ t.nodesDone := by
  rcases h with ⟨j, rfl⟩
  induction j with
  | zero => exact fun x hx => hx
  | succ j ih =>
    rw [Function.iterate_succ_apply']
    exact fun x hx => nodesDone_subset_topoStep g _ (ih hx)

theorem result_extends_topoStep (g : Nat → List Nat) (s : SortState) :
    ∃ t, (topoStep g s).result = s.result ++ t := by
  rcases s with ⟨todo, done, result⟩
  cases todo with
  | nil => exact ⟨[], by rw [topoStep_nil, List.append_nil]⟩
  | cons node rest =>
    by_cases h1 : node ∈ done
    · exact ⟨[], by rw [topoStep_of_done h1, List.append_nil]⟩
    · by_cases h2 : (g node).filter (fun d => decide (d ∉ done)) = []
      · exact ⟨[node], by rw [topoStep_of_add h1 h2]⟩
      · exact ⟨[], by rw [topoStep_of_push h1 h2, List.append_nil]⟩

theorem result_extends_steps {g : Nat → List Nat} {s t : SortState}
    (h : Steps g s t) : ∃ u, t.result = s.result ++ u := by
  rcases h with ⟨j, rfl⟩
  induction j with
  | zero => exact ⟨[], (List.append_nil _).symm⟩
  | succ j ih =>
    rcases ih with ⟨u, hu⟩
    rw [Function.iterate_succ_apply']
    rcases result_extends_topoStep g ((topoStep g)^[j] s) with ⟨v, hv⟩
    exact ⟨u ++ v, by rw [hv, hu, List.append_assoc]⟩

theorem topoLoop_of_iterate {g : Nat → List Nat} :
    ∀ {j : Nat} {s : SortState}, ((topoStep g)^[j] s).nodesToDo = [] →
      topoLoop g j s = some ((topoStep g)^[j] s) := by
  intro j
  induction j with
  | zero =>
    intro s h
    simp only [Function.iterate_zero_apply] at h ⊢
    simp [topoLoop, h]
  | succ j ih =>
    intro s h
    by_cases hs : s.nodesToDo = []
    · rw [iterate_of_empty hs] at h ⊢
      simp [topoLoop, hs]
    · rw [Function.iterate_succ_apply] at h ⊢
      simp only [topoLoop, if_neg hs]
      exact ih h

theorem topoLoop_some {g : Nat → List Nat} :
    ∀ {fuel : Nat} {s t : SortState}, topoLoop g fuel s = some t →
      Steps g s t ∧ t.nodesToDo = [] := by
  intro fuel
  induction fuel with
  | zero =>
    intro s t h
    simp only [topoLoop] at h
    by_cases hs : s.nodesToDo = []
    · rw [if_pos hs] at h
      cases h
      exact ⟨Steps.refl g s, hs⟩
    · rw [if_neg hs] at h
      cases h
  | succ fuel ih =>
    intro s t h
    simp only [topoLoop] at h
    by_cases hs : s.nodesToDo = []
    · rw [if_pos hs] at h
      cases h
      exact ⟨Steps.refl g s, hs⟩
    · rw [if_neg hs] at h
      rcases ih h with ⟨hsteps, hempty⟩
      exact ⟨Steps.trans (Steps.single rfl) hsteps, hempty⟩

theorem steps_topoLoop {g : Nat → List Nat} {s t : SortState}
    (h : Steps g s t) (he : t.nodesToDo = []) :
    ∃ fuel, topoLoop g fuel s = some t := by
  rcases h with ⟨j, rfl⟩
  exact ⟨j, topoLoop_of_iterate he⟩

theorem append_singleton_eq_append_cons {l l1 l2 : List Nat} {x m : Nat}
    (h : l ++ [x] = l1 ++ m :: l2) :
    (l1 = l ∧ m = x ∧ l2 = []) ∨ ∃ l2p, l = l1 ++ m :: l2p ∧ l2 = l2p ++ [x] := by
  rcases l2.eq_nil_or_concat with rfl | ⟨l2p, y, rfl⟩
  · left
    rcases List.append_inj' h rfl with ⟨he1, he2⟩
    have hx : m = x := by
      cases he2
      rfl
    exact ⟨he1.symm, hx, rfl⟩
  · right
    have h' : l ++ [x] = (l1 ++ m :: l2p) ++ [y] := by
      rw [h, List.concat_eq_append, List.append_assoc, List.cons_append]
    rcases List.append_inj' h' rfl with ⟨he1, he2⟩
    have hx : x = y := by
      cases he2
      rfl
    exact ⟨l2p, he1, by rw [hx, List.concat_eq_append]⟩

theorem sortInv_init (g : Nat → List Nat) (roots : List Nat) :
    SortInv g roots ⟨roots.reverse, [], []⟩ := by
  refine ⟨?_, ?_, ?_, ?_, ?_, ?_, ?_⟩
  · intro n hn
    exact absurd hn (List.not_mem_nil n)
  · intro x
    simp
  · exact List.nodup_nil
  · intro l1 n l2 h
    exact absurd h.symm (List.append_ne_nil_of_right_ne_nil l1 (List.cons_ne_nil n l2))
  · intro x hx
    exact Reach.root x (List.mem_reverse.mp hx)
  · intro x hx
    exact absurd hx (List.not_mem_nil x)
  · intro r hr
    exact Or.inr (List.mem_reverse.mpr hr)

theorem sortInv_topoStep {g : Nat → List Nat} {roots : List Nat} {s : SortState}
    (hInv : SortInv g roots s) : SortInv g roots (topoStep g s) := by
  rcases s with ⟨todo, done, result⟩
  rcases hInv with ⟨hclosed, hdr, hnodup, hsorted, htodo, hdone, hroots⟩
  cases todo with
  | nil =>
    rw [topoStep_nil]
    exact ⟨hclosed, hdr, hnodup, hsorted, htodo, hdone, hroots⟩
  | cons node rest =>
    by_cases h1 : node ∈ done
    · rw [topoStep_of_done h1]
      refine ⟨hclosed, hdr, hnodup, hsorted, ?_, hdone, ?_⟩
      · intro x hx
        exact htodo x (List.mem_cons_of_mem node hx)
      · intro r hr
        rcases hroots r hr with h | h
        · exact Or.inl h
        · rcases List.mem_cons.mp h with rfl | h
          · exact Or.inl h1
          · exact Or.inr h
    · by_cases h2 : (g node).filter (fun d => decide (d ∉ done)) = []
      · rw [topoStep_of_add h1 h2]
        have hdeps : ∀ d ∈ g node, d ∈ done := by
          intro d hd
          by_contra hdd
          have hmem : d ∈ (g node).filter (fun d => decide (d ∉ done)) := by
            rw [List.mem_filter]
            exact ⟨hd, by simpa using hdd⟩
          rw [h2] at hmem
          exact absurd hmem (List.not_mem_nil d)
        have hnode_reach : Reach g roots node := htodo node (List.mem_cons_self node rest)
        refine ⟨?_, ?_, ?_, ?_, ?_, ?_, ?_⟩
        · intro n hn d hd
          rcases List.mem_cons.mp hn with rfl | hn
          · exact List.mem_cons_of_mem n (hdeps d hd)
          · exact List.mem_cons_of_mem node (hclosed n hn d hd)
        · intro x
          simp only [List.mem_cons, List.mem_append, List.mem_singleton, hdr x]
          tauto
        · rw [List.nodup_append]
          refine ⟨hnodup, List.nodup_singleton node, ?_⟩
          intro a ha ha2
          rcases List.mem_singleton.mp ha2 with rfl
          exact h1 ((hdr a).mpr ha)
        · intro l1 n l2 heq d hd
          rcases append_singleton_eq_append_cons heq with ⟨rfl, rfl, rfl⟩ | ⟨l2p, hres, rfl⟩
          · exact (hdr d).mp (hdeps d hd)
          · exact hsorted l1 n l2p hres d hd
        · intro x hx
          exact htodo x (List.mem_cons_of_mem node hx)
        · intro x hx
          rcases List.mem_cons.mp hx with rfl | hx
          · exact hnode_reach
          · exact hdone x hx
        · intro r hr
          rcases hroots r hr with h | h
          · exact Or.inl (List.mem_cons_of_mem node h)
          · rcases List.mem_cons.mp h with rfl | h
            · exact Or.inl (List.mem_cons_self r done)
            · exact Or.inr h
      · rw [topoStep_of_push h1 h2]
        have hnode_reach : Reach g roots node := htodo node (List.mem_cons_self node rest)
        refine ⟨hclosed, hdr, hnodup, hsorted, ?_, hdone, ?_⟩
        · intro x hx
          rcases List.mem_append.mp hx with hx | hx
          · have hx' := List.mem_filter.mp (List.mem_reverse.mp hx)
            exact Reach.step node x hnode_reach hx'.1
          · exact htodo x hx
        · intro r hr
          rcases hroots r hr with h | h
          · exact Or.inl h
          · exact Or.inr (List.mem_append_right _ h)

theorem sortInv_steps {g : Nat → List Nat} {roots : List Nat} {s t : SortState}
    (h : Steps g s t) (hInv : SortInv g roots s) : SortInv g roots t := by
  rcases h with ⟨j, rfl⟩
  induction j with
  | zero => exact hInv
  | succ j ih => rw [Function.iterate_succ_apply']; exact sortInv_topoStep ih

theorem procOne_unique {g : Nat → List Nat} {x : Nat} {done result d1 r1 d2 r2 : List Nat}
    (h1 : ProcOne g x done result d1 r1) (h2 : ProcOne g x done result d2 r2) :
    d1 = d2 ∧ r1 = r2 := by
  have h := steps_empty_unique (h1 []) (h2 []) rfl rfl
  exact ⟨congrArg SortState.nodesDone h, congrArg SortState.result h⟩

theorem procOne_done_subset {g : Nat → List Nat} {x : Nat} {done result d r : List Nat}
    (h : ProcOne g x done result d r) : done ⊆ d :=
  nodesDone_subset_steps (h [])

theorem procOne_result_extends {g : Nat → List Nat} {x : Nat} {done result d r : List Nat}
    (h : ProcOne g x done result d r) : ∃ u, r = result ++ u :=
  result_extends_steps (h [])

theorem mem_done_or_todo_topoStep {g : Nat → List Nat} {s : SortState} {x : Nat}
    (h : x ∈ s.nodesDone ∨ x ∈ s.nodesToDo) :
    x ∈ (topoStep g s).nodesDone ∨ x ∈ (topoStep g s).nodesToDo := by
  rcases s with ⟨todo, done, result⟩
  cases todo with
  | nil => rw [topoStep_nil]; exact h
  | cons node rest =>
    by_cases h1 : node ∈ done
    · rw [topoStep_of_done h1]
      rcases h with h | h
      · exact Or.inl h
      · rcases List.mem_cons.mp h with rfl | h
        · exact Or.inl h1
        · exact Or.inr h
    · by_cases h2 : (g node).filter (fun d => decide (d ∉ done)) = []
      · rw [topoStep_of_add h1 h2]
        rcases h with h | h
        · exact Or.inl (List.mem_cons_of_mem _ h)
        · rcases List.mem_cons.mp h with rfl | h
          · exact Or.inl (List.mem_cons_self _ _)
          · exact Or.inr h
      · rw [topoStep_of_push h1 h2]
        rcases h with h | h
        · exact Or.inl h
        · exact Or.inr (List.mem_append_right _ h)

theorem mem_done_of_steps_empty {g : Nat → List Nat} {s t : SortState} {x : Nat}
    (hs : Steps g s t) (ht : t.nodesToDo = [])
    (h : x ∈ s.nodesDone ∨ x ∈ s.nodesToDo) : x ∈ t.nodesDone := by
  rcases hs with ⟨j, rfl⟩
  have hj : ∀ i, x ∈ ((topoStep g)^[i] s).nodesDone ∨ x ∈ ((topoStep g)^[i] s).nodesToDo := by
    intro i
    induction i with
    | zero => exact h
    | succ i ih => rw [Function.iterate_succ_apply']; exact mem_done_or_todo_topoStep ih
  rcases hj j with hd | hd
  · exact hd
  · rw [ht] at hd
    exact absurd hd (List.not_mem_nil x)

theorem procOne_mem {g : Nat → List Nat} {x : Nat} {done result d r : List Nat}
    (h : ProcOne g x done result d r) : x ∈ d :=
  mem_done_of_steps_empty (h []) rfl (Or.inr (List.mem_cons_self x []))

theorem reachFrom_self (g : Nat → List Nat) (x : Nat) : ReachFrom g x x :=
  Reach.root x (List.mem_singleton.mpr rfl)

theorem reachFrom_trans {g : Nat → List Nat} {x y z : Nat}
    (h1 : ReachFrom g x y) (h2 : ReachFrom g y z) : ReachFrom g x z := by
  induction h2 with
  | root r hr =>
    rw [List.mem_singleton.mp hr]
    exact h1
  | step n d _ hd ih => exact Reach.step n d ih hd

theorem provInv_topoStep {g : Nat → List Nat} {x : Nat} {done0 : List Nat} {s : SortState}
    (h : ProvInv g x done0 s) : ProvInv g x done0 (topoStep g s) := by
  rcases s with ⟨todo, done, result⟩
  rcases h with ⟨hdone, htodo⟩
  cases todo with
  | nil => rw [topoStep_nil]; exact ⟨hdone, htodo⟩
  | cons node rest =>
    by_cases h1 : node ∈ done
    · rw [topoStep_of_done h1]
      exact ⟨hdone, fun z hz => htodo z (List.mem_cons_of_mem node hz)⟩
    · by_cases h2 : (g node).filter (fun d => decide (d ∉ done)) = []
      · rw [topoStep_of_add h1 h2]
        refine ⟨?_, fun z hz => htodo z (List.mem_cons_of_mem node hz)⟩
        intro y hy
        rcases List.mem_cons.mp hy with rfl | hy
        · exact Or.inr (htodo y (List.mem_cons_self y rest))
        · exact hdone y hy
      · rw [topoStep_of_push h1 h2]
        refine ⟨hdone, ?_⟩
        intro z hz
        rcases List.mem_append.mp hz with hz | hz
        · have hz' := List.mem_filter.mp (List.mem_reverse.mp hz)
          exact Reach.step node z (htodo node (List.mem_cons_self node rest)) hz'.1
        · exact htodo z hz

theorem procOne_prov {g : Nat → List Nat} {x : Nat} {done result d r : List Nat}
    (h : ProcOne g x done result d r) : ∀ y ∈ d, y ∈ done ∨ ReachFrom g x y := by
  rcases h [] with ⟨j, hj⟩
  have hinv : ∀ i, ProvInv g x done ((topoStep g)^[i] (⟨[x], done, result⟩ : SortState)) := by
    intro i
    induction i with
    | zero =>
      refine ⟨fun y hy => Or.inl hy, ?_⟩
      intro z hz
      rw [List.mem_singleton.mp hz]
      exact reachFrom_self g x
    | succ i ih => rw [Function.iterate_succ_apply']; exact provInv_topoStep ih
  have := (hinv j).1
  rw [hj] at this
  exact this

theorem phases_steps {g : Nat → List Nat} {S done result d r : List Nat}
    (h : Phases g S done result d r) :
    ∀ rest, Steps g ⟨S ++ rest, done, result⟩ ⟨rest, d, r⟩ := by
  induction h with
  | nil done result => exact fun rest => Steps.refl g _
  | cons hproc _ ih =>
    intro rest
    exact Steps.trans (hproc _) (ih rest)

theorem phases_done_subset {g : Nat → List Nat} {S done result d r : List Nat}
    (h : Phases g S done result d r) : done ⊆ d := by
  induction h with
  | nil done result => exact fun x hx => hx
  | cons hproc _ ih => exact fun x hx => ih (procOne_done_subset hproc hx)

theorem phases_mem {g : Nat → List Nat} {S done result d r : List Nat}
    (h : Phases g S done result d r) : ∀ y ∈ S, y ∈ d := by
  induction h with
  | nil done result =>
    intro y hy
    exact absurd hy (List.not_mem_nil y)
  | cons hproc _ ih =>
    intro y hy
    rcases List.mem_cons.mp hy with rfl | hy
    · exact phases_done_subset (by assumption) (procOne_mem hproc)
    · exact ih y hy

theorem phases_result_extends {g : Nat → List Nat} {S done result d r : List Nat}
    (h : Phases g S done result d r) : ∃ u, r = result ++ u := by
  induction h with
  | nil done result => exact ⟨[], (List.append_nil _).symm⟩
  | cons hproc _ ih =>
    rcases procOne_result_extends hproc with ⟨u1, hu1⟩
    rcases ih with ⟨u2, hu2⟩
    exact ⟨u1 ++ u2, by rw [hu2, hu1, List.append_assoc]⟩

theorem phases_unique {g : Nat → List Nat} {S done result d1 r1 d2 r2 : List Nat}
    (h1 : Phases g S done result d1 r1) (h2 : Phases g S done result d2 r2) :
    d1 = d2 ∧ r1 = r2 := by
  have h := steps_empty_unique (phases_steps h1 []) (phases_steps h2 []) rfl rfl
  exact ⟨congrArg SortState.nodesDone h, congrArg SortState.result h⟩

theorem phases_exists_of {g : Nat → List Nat} {S : List Nat}
    (H : ∀ x ∈ S, ∀ done result, ∃ d r, ProcOne g x done result d r) :
    ∀ done result, ∃ d r, Phases g S done result d r := by
  induction S with
  | nil => exact fun done result => ⟨done, result, Phases.nil done result⟩
  | cons x S ih =>
    intro done result
    rcases H x (List.mem_cons_self x S) done result with ⟨d1, r1, h1⟩
    rcases ih (fun y hy => H y (List.mem_cons_of_mem x hy)) d1 r1 with ⟨d2, r2, h2⟩
    exact ⟨d2, r2, Phases.cons h1 h2⟩

/-- Every stack entry can be fully processed: the key termination argument,
by strong induction on the acyclicity level. Once a node's pushed producers
have all been finalized, the node itself is finalized when re-inspected. -/
theorem procOne_exists {g : Nat → List Nat} {lvl : Nat → Nat} (hacyc : Acyclic g lvl) :
    ∀ x done result, ∃ d r, ProcOne g x done result d r := by
  suffices H : ∀ k x, lvl x ≤ k → ∀ done result, ∃ d r, ProcOne g x done result d r by
    intro x done result
    exact H (lvl x) x le_rfl done result
  intro k
  induction k using Nat.strong_induction_on with
  | _ k ih =>
    intro x hk done result
    by_cases hx : x ∈ done
    · exact ⟨done, result, fun rest => Steps.single (topoStep_of_done hx)⟩
    · by_cases h2 : (g x).filter (fun d => decide (d ∉ done)) = []
      · exact ⟨x :: done, result ++ [x], fun rest => Steps.single (topoStep_of_add hx h2)⟩
      · have hproc : ∀ y ∈ ((g x).filter (fun d => decide (d ∉ done))).reverse,
            ∀ done1 result1, ∃ d r, ProcOne g y done1 result1 d r := by
          intro y hy done1 result1
          have hymem : y ∈ g x := (List.mem_filter.mp (List.mem_reverse.mp hy)).1
          have hlt : lvl y < k := lt_of_lt_of_le (hacyc x y hymem) hk
          exact ih (lvl y) hlt y le_rfl done1 result1
        rcases phases_exists_of hproc done result with ⟨d1, r1, hph⟩
        have hsub : done ⊆ d1 := phases_done_subset hph
        have humem := phases_mem hph
        by_cases hxd : x ∈ d1
        · refine ⟨d1, r1, ?_⟩
          intro rest
          refine Steps.trans (Steps.single (topoStep_of_push hx h2)) ?_
          exact Steps.trans (phases_steps hph (x :: rest))
            (Steps.single (topoStep_of_done hxd))
        · have hfil : (g x).filter (fun d => decide (d ∉ d1)) = [] := by
            rw [List.filter_eq_nil_iff]
            intro a ha
            simp only [decide_eq_true_eq, not_not]
            by_cases had : a ∈ done
            · exact hsub had
            · refine humem a (List.mem_reverse.mpr ?_)
              rw [List.mem_filter]
              exact ⟨ha, by simpa using had⟩
          refine ⟨x :: d1, r1 ++ [x], ?_⟩
          intro rest
          refine Steps.trans (Steps.single (topoStep_of_push hx h2)) ?_
          exact Steps.trans (phases_steps hph (x :: rest))
            (Steps.single (topoStep_of_add hxd hfil))

theorem sort_run_exists {g : Nat → List Nat} {lvl : Nat → Nat} (hacyc : Acyclic g lvl)
    (roots : List Nat) :
    ∃ D R, Steps g ⟨roots.reverse, [], []⟩ ⟨[], D, R⟩ := by
  rcases phases_exists_of (fun x _ => procOne_exists hacyc x) ([]) ([]) with ⟨D, R, hph⟩
  have hsteps := phases_steps (S := roots.reverse) hph []
  rw [List.append_nil] at hsteps
  exact ⟨D, R, hsteps⟩

theorem topoSort_of_run {g : Nat → List Nat} {roots D R : List Nat}
    (h : Steps g ⟨roots.reverse, [], []⟩ ⟨[], D, R⟩) :
    ∃ fuel, TopologicalSort g roots fuel = some R := by
  rcases steps_topoLoop h rfl with ⟨fuel, hf⟩
  exact ⟨fuel, by rw [TopologicalSort, hf]; rfl⟩

theorem reach_mem_done {g : Nat → List Nat} {roots : List Nat} {t : SortState}
    (hInv : SortInv g roots t) (ht : t.nodesToDo = []) :
    ∀ x, Reach g roots x → x ∈ t.nodesDone := by
  intro x hx
  induction hx with
  | root r hr =>
    rcases hInv.roots_covered r hr with h | h
    · exact h
    · rw [ht] at h
      exact absurd h (List.not_mem_nil r)
  | step n d _ hd ih => exact hInv.done_closed n ih d hd

theorem sorted_result_spec {g : Nat → List Nat} {roots D R : List Nat}
    (h : Steps g ⟨roots.reverse, [], []⟩ ⟨[], D, R⟩) :
    (∀ x, x ∈ R ↔ Reach g roots x) ∧ R.Nodup ∧
      ∀ l1 n l2, R = l1 ++ n :: l2 → ∀ d ∈ g n, d ∈ l1 := by
  have hInv : SortInv g roots ⟨[], D, R⟩ := sortInv_steps h (sortInv_init g roots)
  refine ⟨?_, hInv.result_nodup, hInv.result_sorted⟩
  intro x
  constructor
  · intro hx
    exact hInv.done_reach x ((hInv.done_result x).mpr hx)
  · intro hx
    exact (hInv.done_result x).mp (reach_mem_done hInv rfl x hx)

/-- C1: For every acyclic graph built through the public construction calls,
`TopologicalSort` applied to the terminal (requested-output) operands
returns a sequence of operators in which every operator appears strictly
after all operators producing its inputs (its producers lie in the strict
prefix before it), and each operator reachable from the terminal operands
appears exactly once (and nothing else appears). -/
theorem claim1_topological_sort_correct (g : Nat → List Nat) (lvl : Nat → Nat)
    (hacyc : Acyclic g lvl) (roots : List Nat) :
    ∃ fuel res, TopologicalSort g roots fuel = some res ∧
      (∀ x, x ∈ res ↔ Reach g roots x) ∧
      (∀ x, Reach g roots x → res.count x = 1) ∧
      ∀ l1 n l2, res = l1 ++ n :: l2 → ∀ d ∈ g n, d ∈ l1 := by
  rcases sort_run_exists hacyc roots with ⟨D, R, hrun⟩
  rcases topoSort_of_run hrun with ⟨fuel, hfuel⟩
  rcases sorted_result_spec hrun with ⟨hmem, hnodup, hsorted⟩
  refine ⟨fuel, R, hfuel, hmem, ?_, hsorted⟩
  intro x hx
  exact List.count_eq_one_of_mem hnodup ((hmem x).mpr hx)

/-- Witness for C1 on the concrete two-producer example graph. -/
theorem claim1_witness :
    Acyclic exampleGraph (fun k => k) ∧
      (∃ fuel res, TopologicalSort exampleGraph [2] fuel = some res ∧
        (∀ x, x ∈ res ↔ Reach exampleGraph [2] x) ∧
        (∀ x, Reach exampleGraph [2] x → res.count x = 1) ∧
        ∀ l1 n l2, res = l1 ++ n :: l2 → ∀ d ∈ exampleGraph n, d ∈ l1) := by
  exact ⟨exampleGraph_acyclic,
    claim1_topological_sort_correct exampleGraph (fun k => k) exampleGraph_acyclic [2]⟩

theorem topoLoop_fuel_irrelevant {g : Nat → List Nat} {s t1 t2 : SortState}
    {f1 f2 : Nat} (h1 : topoLoop g f1 s = some t1) (h2 : topoLoop g f2 s = some t2) :
    t1 = t2 := by
  rcases topoLoop_some h1 with ⟨hs1, he1⟩
  rcases topoLoop_some h2 with ⟨hs2, he2⟩
  exact steps_empty_unique hs1 hs2 he1 he2

/-- C5: sorting the same graph twice over the same terminal set, with no
mutation in between, yields identical operator sequences: the result of
`TopologicalSort` is a function of the graph and the root list alone, and in
particular does not depend on the step budget with which the loop is run to
completion. -/
theorem claim5_sort_deterministic (g : Nat → List Nat) (roots : List Nat)
    (f1 f2 : Nat) (r1 r2 : List Nat)
    (h1 : TopologicalSort g roots f1 = some r1)
    (h2 : TopologicalSort g roots f2 = some r2) : r1 = r2 := by
  rw [TopologicalSort] at h1 h2
  rcases hl1 : topoLoop g f1 ⟨roots.reverse, [], []⟩ with _ | t1
  · rw [hl1] at h1
    cases h1
  · rcases hl2 : topoLoop g f2 ⟨roots.reverse, [], []⟩ with _ | t2
    · rw [hl2] at h2
      cases h2
    · rw [hl1] at h1
      rw [hl2] at h2
      cases h1
      cases h2
      rw [topoLoop_fuel_irrelevant hl1 hl2]

/-- Witness for C5: two runs with different fuel budgets agree on the
example graph. -/

theorem claim5_witness :
    TopologicalSort exampleGraph [2] 10 = some [1, 0, 2] ∧
      TopologicalSort exampleGraph [2] 37 = some [1, 0, 2] ∧
      ([1, 0, 2] : List Nat) = [1, 0, 2] := by
  refine ⟨by rfl, by rfl, ?_⟩
  exact claim5_sort_deterministic exampleGraph [2] 10 37 [1, 0, 2] [1, 0, 2]
    (by rfl) (by rfl) ▸ rfl

theorem topoLoop_of_steps {g : Nat → List Nat} {s t : SortState}
    (h : Steps g s t) (ht : t.nodesToDo = []) :
    ∃ j, ∀ fuel, j ≤ fuel → topoLoop g fuel s = some t := by
  rcases h with ⟨j, rfl⟩
  refine ⟨j, ?_⟩
  intro fuel hf
  have hiter : (topoStep g)^[fuel] s = (topoStep g)^[j] s := by
    rw [← Nat.sub_add_cancel hf, Function.iterate_add_apply, iterate_of_empty ht]
  have h1 : ((topoStep g)^[fuel] s).nodesToDo = [] := by
    rw [hiter]
    exact ht
  rw [topoLoop_of_iterate h1, hiter]

theorem dedupKeepFirst_cons (seen : List Nat) (x : Nat) (S : List Nat) :
    dedupKeepFirst seen (x :: S) =
      if x ∈ seen then dedupKeepFirst seen S else x :: dedupKeepFirst (x :: seen) S := rfl

theorem dedupKeepFirst_append_singleton (a : Nat) :
    ∀ (l seen : List Nat), dedupKeepFirst seen (l ++ [a]) =
      dedupKeepFirst seen l ++ (if a ∈ seen ∨ a ∈ l then [] else [a]) := by
  intro l
  induction l with
  | nil =>
    intro seen
    by_cases ha : a ∈ seen
    · simp [dedupKeepFirst, dedupKeepFirst_cons, ha]
    · simp [dedupKeepFirst, dedupKeepFirst_cons, ha]
  | cons x l ih =>
    intro seen
    rw [List.cons_append, dedupKeepFirst_cons, dedupKeepFirst_cons]
    by_cases hx : x ∈ seen
    · have hcond : (a ∈ seen ∨ a ∈ x :: l) ↔ (a ∈ seen ∨ a ∈ l) := by
        constructor
        · rintro (h | h)
          · exact Or.inl h
          · rcases List.mem_cons.mp h with rfl | h
            · exact Or.inl hx
            · exact Or.inr h
        · rintro (h | h)
          · exact Or.inl h
          · exact Or.inr (List.mem_cons_of_mem x h)
      rw [if_pos hx, if_pos hx, ih seen, if_congr hcond rfl rfl]
    · have hcond : (a ∈ x :: seen ∨ a ∈ l) ↔ (a ∈ seen ∨ a ∈ x :: l) := by
        constructor
        · rintro (h | h)
          · rcases List.mem_cons.mp h with rfl | h
            · exact Or.inr (List.mem_cons_self a l)
            · exact Or.inl h
          · exact Or.inr (List.mem_cons_of_mem x h)
        · rintro (h | h)
          · exact Or.inl (List.mem_cons_of_mem x h)
          · rcases List.mem_cons.mp h with rfl | h
            · exact Or.inl (List.mem_cons_self a seen)
            · exact Or.inr h
      rw [if_neg hx, if_neg hx, ih (x :: seen), List.cons_append, if_congr hcond rfl rfl]

/-- On a reversed list, keep-first deduplication computes the reverse of
`List.dedup` (which keeps the last occurrence). -/
theorem dedupKeepFirst_reverse (l : List Nat) :
    dedupKeepFirst [] l.reverse = l.dedup.reverse := by
  induction l with
  | nil => rfl
  | cons a l ih =>
    rw [List.reverse_cons, dedupKeepFirst_append_singleton, ih]
    by_cases ha : a ∈ l
    · have hmem : a ∈ ([] : List Nat) ∨ a ∈ l.reverse := Or.inr (List.mem_reverse.mpr ha)
      rw [if_pos hmem, List.dedup_cons_of_mem ha, List.append_nil]
    · have hmem : ¬(a ∈ ([] : List Nat) ∨ a ∈ l.reverse) := by
        rintro (h | h)
        · exact absurd h (List.not_mem_nil a)
        · exact ha (List.mem_reverse.mp h)
      rw [if_neg hmem, List.dedup_cons_of_not_mem ha, List.reverse_cons]

theorem dupPad_dedupKeepFirst : ∀ (S seen : List Nat), DupPad seen (dedupKeepFirst seen S) S := by
  intro S
  induction S with
  | nil => exact fun seen => DupPad.nil seen
  | cons x S ih =>
    intro seen
    by_cases hx : x ∈ seen
    · rw [dedupKeepFirst, if_pos hx]
      exact DupPad.pad seen x _ S hx (ih seen)
    · rw [dedupKeepFirst, if_neg hx]
      exact DupPad.cons seen x _ S (ih (x :: seen))

/-- Extra already-finalized occurrences on the stack do not change the
outcome of processing it: each such occurrence is popped as a no-op. -/
theorem phases_of_dupPad {g : Nat → List Nat} {seen S T : List Nat}
    (hdp : DupPad seen S T) :
    ∀ {done result d r : List Nat}, (∀ y ∈ seen, y ∈ done) →
      Phases g S done result d r → Phases g T done result d r := by
  induction hdp with
  | nil seen => exact fun _ hph => hph
  | cons seen x S T _ ih =>
    intro done result d r hseen hph
    cases hph with
    | cons hproc hph2 =>
      refine Phases.cons hproc (ih ?_ hph2)
      intro y hy
      rcases List.mem_cons.mp hy with rfl | hy
      · exact procOne_mem hproc
      · exact procOne_done_subset hproc (hseen y hy)
  | pad seen y S T hymem _ ih =>
    intro done result d r hseen hph
    have hproc : ProcOne g y done result done result :=
      fun rest => Steps.single (topoStep_of_done (hseen y hymem))
    exact Phases.cons hproc (ih hseen hph)

/-- C9: sorting a terminal list with duplicates (two outputs bound to the
same operand, or two operands sharing one producer) gives the same sequence
as sorting the deduplicated terminal list (`List.dedup`, which keeps the
last occurrence — the occurrence the traversal processes first), and every
shared producing operator appears exactly once in the result. -/
theorem claim9_sort_duplicate_roots (g : Nat → List Nat) (lvl : Nat → Nat)
    (hacyc : Acyclic g lvl) (roots : List Nat) :
    ∃ fuel r, TopologicalSort g roots fuel = some r ∧
      TopologicalSort g roots.dedup fuel = some r ∧
      ∀ x ∈ r, r.count x = 1 := by
  rcases phases_exists_of (S := roots.dedup.reverse)
    (fun x _ => procOne_exists hacyc x) ([]) ([]) with ⟨D, R, hsmall⟩
  have hdp : DupPad [] (roots.dedup.reverse) roots.reverse := by
    have h := dupPad_dedupKeepFirst roots.reverse []
    rwa [dedupKeepFirst_reverse] at h
  have hbig : Phases g roots.reverse [] [] D R :=
    phases_of_dupPad hdp (fun y hy => absurd hy (List.not_mem_nil y)) hsmall
  have hrun_big : Steps g ⟨roots.reverse, [], []⟩ ⟨[], D, R⟩ := by
    have h := phases_steps hbig []
    rwa [List.append_nil] at h
  have hrun_small : Steps g ⟨roots.dedup.reverse, [], []⟩ ⟨[], D, R⟩ := by
    have h := phases_steps hsmall []
    rwa [List.append_nil] at h
  rcases topoLoop_of_steps hrun_big rfl with ⟨j1, hj1⟩
  rcases topoLoop_of_steps hrun_small rfl with ⟨j2, hj2⟩
  refine ⟨max j1 j2, R, ?_, ?_, ?_⟩
  · rw [TopologicalSort, hj1 (max j1 j2) (Nat.le_max_left j1 j2)]
    rfl
  · rw [TopologicalSort, hj2 (max j1 j2) (Nat.le_max_right j1 j2)]
    rfl
  · intro x hx
    exact List.count_eq_one_of_mem (sorted_result_spec hrun_big).2.1 hx

/-- Witness for C9: the terminal list `[0, 2, 2]` (operator 2 requested
twice) sorts identically to its deduplication `[0, 2]`. -/
theorem claim9_witness :
    ∃ fuel r, TopologicalSort exampleGraph [0, 2, 2] fuel = some r ∧
      TopologicalSort exampleGraph ([0, 2, 2] : List Nat).dedup fuel = some r ∧
      ∀ x ∈ r, r.count x = 1 := by
  exact claim9_sort_duplicate_roots exampleGraph (fun k => k) exampleGraph_acyclic [0, 2, 2]

theorem phases_prov {g : Nat → List Nat} {S done result d r : List Nat}
    (h : Phases g S done result d r) :
    ∀ y ∈ d, y ∈ done ∨ ∃ x ∈ S, ReachFrom g x y := by
  induction h with
  | nil done result => exact fun y hy => Or.inl hy
  | @cons x S done result d1 r1 d2 r2 hproc hph ih =>
    intro y hy
    rcases ih y hy with hy1 | ⟨z, hz, hrz⟩
    · rcases procOne_prov hproc y hy1 with h | h
      · exact Or.inl h
      · exact Or.inr ⟨x, List.mem_cons_self x S, h⟩
    · exact Or.inr ⟨z, List.mem_cons_of_mem x hz, hrz⟩

theorem indexOf_append_lt {l1 l2 : List Nat} {x y : Nat} (hx : x ∈ l1) (hy : y ∉ l1) :
    (l1 ++ l2).indexOf x < (l1 ++ l2).indexOf y := by
  rw [List.indexOf_append_of_mem hx, List.indexOf_append_of_not_mem hy]
  exact lt_of_lt_of_le (List.indexOf_lt_length.mpr hx) (Nat.le_add_right _ _)

/-- C4 (amended): among independent producers the traversal emits the
producers in the reverse of the `Inputs()` order. If operator `n` is sorted
as the sole terminal, its input producers are pairwise distinct and
pairwise unreachable from one another, and producer `a` is listed before
producer `b` in `Inputs()`, then `b` appears strictly before `a` in the
output sequence. -/
theorem claim4_independent_producers_reverse_order (g : Nat → List Nat) (lvl : Nat → Nat)
    (hacyc : Acyclic g lvl) (n a b : Nat) (P M Q : List Nat)
    (hdec : g n = P ++ a :: (M ++ b :: Q))
    (hnodup : (g n).Nodup)
    (hind : ∀ x ∈ g n, ∀ y ∈ g n, x ≠ y → ¬ ReachFrom g x y) :
    ∃ fuel res, TopologicalSort g [n] fuel = some res ∧
      res.indexOf b < res.indexOf a := by
  have hamem : a ∈ g n := by
    rw [hdec]
    exact List.mem_append_right P (List.mem_cons_self a _)
  have hbmem : b ∈ g n := by
    rw [hdec]
    refine List.mem_append_right P (List.mem_cons_of_mem a ?_)
    exact List.mem_append_right M (List.mem_cons_self b Q)
  -- distinctness facts from Nodup
  have hnodup2 : (a :: (M ++ b :: Q)).Nodup := (List.nodup_append.mp (hdec ▸ hnodup)).2.1
  have hanotin : a ∉ M ++ b :: Q := (List.nodup_cons.mp hnodup2).1
  have haM : a ∉ M := fun h => hanotin (List.mem_append_left _ h)
  have hab : a ≠ b := by
    intro h
    exact hanotin (List.mem_append_right M (h ▸ List.mem_cons_self a Q))
  have haQ : a ∉ Q := fun h =>
    hanotin (List.mem_append_right M (List.mem_cons_of_mem b h))
  -- the first loop iteration pushes all producers
  have hfil0 : (g n).filter (fun d => decide (d ∉ ([] : List Nat))) = g n := by
    apply List.filter_eq_self.mpr
    intro z hz
    simp
  have hne : g n ≠ [] := by
    rw [hdec]
    exact List.append_ne_nil_of_right_ne_nil P (List.cons_ne_nil a _)
  have hstep1 : topoStep g ⟨[n], [], []⟩ = ⟨(g n).reverse ++ [n], [], []⟩ := by
    rw [topoStep_of_push (List.not_mem_nil n) (by rw [hfil0]; exact hne), hfil0]
  have hstack : (g n).reverse ++ [n] =
      (Q.reverse ++ b :: M.reverse) ++ a :: (P.reverse ++ [n]) := by
    rw [hdec]
    simp
  -- phase 1: everything listed after a (it sits above a on the stack)
  rcases phases_exists_of (S := Q.reverse ++ b :: M.reverse)
    (fun x _ => procOne_exists hacyc x) ([]) ([]) with ⟨d1, r1, hph1⟩
  have hbd1 : b ∈ d1 :=
    phases_mem hph1 b (List.mem_append_right _ (List.mem_cons_self b _))
  have had1 : a ∉ d1 := by
    intro hin
    rcases phases_prov hph1 a hin with h | ⟨x, hx, hrx⟩
    · exact absurd h (List.not_mem_nil a)
    · have hxg : x ∈ g n := by
        rw [hdec]
        rcases List.mem_append.mp hx with hx | hx
        · refine List.mem_append_right P (List.mem_cons_of_mem a ?_)
          exact List.mem_append_right M
            (List.mem_cons_of_mem b (List.mem_reverse.mp hx))
        · rcases List.mem_cons.mp hx with rfl | hx
          · refine List.mem_append_right P (List.mem_cons_of_mem a ?_)
            exact List.mem_append_right M (List.mem_cons_self x Q)
          · refine List.mem_append_right P (List.mem_cons_of_mem a ?_)
            exact List.mem_append_left _ (List.mem_reverse.mp hx)
      have hxa : x ≠ a := by
        rintro rfl
        rcases List.mem_append.mp hx with hx | hx
        · exact haQ (List.mem_reverse.mp hx)
        · rcases List.mem_cons.mp hx with h | hx
          · exact hab h
          · exact haM (List.mem_reverse.mp hx)
      exact hind x hxg a hamem hxa hrx
  -- phase 2: a itself
  rcases procOne_exists hacyc a d1 r1 with ⟨d2, r2, hproc2⟩
  have had2 : a ∈ d2 := procOne_mem hproc2
  -- phase 3: everything listed before a
  rcases phases_exists_of (S := P.reverse)
    (fun x _ => procOne_exists hacyc x) d2 r2 with ⟨d3, r3, hph3⟩
  -- all producers are finalized when n resurfaces
  have hall : ∀ x ∈ g n, x ∈ d3 := by
    intro x hx
    rw [hdec] at hx
    rcases List.mem_append.mp hx with hx | hx
    · exact phases_mem hph3 x (List.mem_reverse.mpr hx)
    · rcases List.mem_cons.mp hx with rfl | hx
      · exact phases_done_subset hph3 had2
      · have hx1 : x ∈ d1 := by
          refine phases_mem hph1 x ?_
          rcases List.mem_append.mp hx with hx | hx
          · exact List.mem_append_right _
              (List.mem_cons_of_mem b (List.mem_reverse.mpr hx))
          · rcases List.mem_cons.mp hx with rfl | hx
            · exact List.mem_append_right _ (List.mem_cons_self x _)
            · exact List.mem_append_left _ (List.mem_reverse.mpr hx)
        exact phases_done_subset hph3 (procOne_done_subset hproc2 hx1)
  -- the final step removes n
  have hfin : ∃ DF RF, topoStep g ⟨[n], d3, r3⟩ = ⟨[], DF, RF⟩ ∧
      ∃ u, RF = r3 ++ u := by
    by_cases hn3 : n ∈ d3
    · exact ⟨d3, r3, topoStep_of_done hn3, [], (List.append_nil r3).symm⟩
    · have hfil3 : (g n).filter (fun d => decide (d ∉ d3)) = [] := by
        rw [List.filter_eq_nil_iff]
        intro z hz
        simp only [decide_eq_true_eq, not_not]
        exact hall z hz
      exact ⟨n :: d3, r3 ++ [n], topoStep_of_add hn3 hfil3, [n], rfl⟩
  rcases hfin with ⟨DF, RF, hstepF, u3, hu3⟩
  -- compose the full run
  have hrun1 : Steps g ⟨[n], [], []⟩ ⟨a :: (P.reverse ++ [n]), d1, r1⟩ := by
    refine Steps.trans (Steps.single hstep1) ?_
    rw [hstack]
    exact phases_steps hph1 _
  have hrun2 : Steps g ⟨[n], [], []⟩ ⟨P.reverse ++ [n], d2, r2⟩ :=
    Steps.trans hrun1 (hproc2 _)
  have hrun3 : Steps g ⟨[n], [], []⟩ ⟨[n], d3, r3⟩ :=
    Steps.trans hrun2 (phases_steps hph3 _)
  have hrunF : Steps g ⟨[n], [], []⟩ ⟨[], DF, RF⟩ :=
    Steps.trans hrun3 (Steps.single hstepF)
  -- membership in the partial results, via the invariant
  have hInv1 : SortInv g [n] ⟨a :: (P.reverse ++ [n]), d1, r1⟩ :=
    sortInv_steps hrun1 (sortInv_init g [n])
  have hInv2 : SortInv g [n] ⟨P.reverse ++ [n], d2, r2⟩ :=
    sortInv_steps hrun2 (sortInv_init g [n])
  have hbr1 : b ∈ r1 := (hInv1.done_result b).mp hbd1
  have har1 : a ∉ r1 := fun h => had1 ((hInv1.done_result a).mpr h)
  -- the final output extends r1
  rcases procOne_result_extends hproc2 with ⟨u1, hu1⟩
  rcases phases_result_extends hph3 with ⟨u2, hu2⟩
  have hRF : RF = r1 ++ (u1 ++ (u2 ++ u3)) := by
    rw [hu3, hu2, hu1, List.append_assoc, List.append_assoc]
  rcases topoSort_of_run
      (show Steps g ⟨([n] : List Nat).reverse, [], []⟩ ⟨[], DF, RF⟩ from hrunF)
    with ⟨fuel, hfuel⟩
  refine ⟨fuel, RF, hfuel, ?_⟩
  rw [hRF]
  exact indexOf_append_lt hbr1 har1

theorem reach_singleton_of_no_inputs {g : Nat → List Nat} {x : Nat} (hx : g x = []) :
    ∀ z, Reach g [x] z → z = x := by
  intro z hz
  induction hz with
  | root r hr => exact List.mem_singleton.mp hr
  | step n d _ hd ih =>
    rw [ih] at hd
    rw [hx] at hd
    exact absurd hd (List.not_mem_nil d)

/-- Counterexample to C4 as stated: in `exampleGraph`, operator 2 lists its
independent producers as `[0, 1]` in `Inputs()` order, yet the sort emits
`[1, 0, 2]`: producer 0, listed first, appears after producer 1, so the
producers do not appear in the order they were listed in `Inputs()`. -/
theorem claim4_counterexample :
    exampleGraph 2 = [0, 1] ∧
      TopologicalSort exampleGraph [2] 10 = some [1, 0, 2] ∧
      ¬ (([1, 0, 2] : List Nat).indexOf 0 < ([1, 0, 2] : List Nat).indexOf 1) :=
  ⟨rfl, by rfl, by decide⟩

/-- Witness for the amended C4 on the example graph: producer 1 (listed
second) precedes producer 0 (listed first) in the output. -/
theorem claim4_witness :
    ∃ fuel res, TopologicalSort exampleGraph [2] fuel = some res ∧
      res.indexOf 1 < res.indexOf 0 := by
  refine claim4_independent_producers_reverse_order exampleGraph (fun k => k)
    exampleGraph_acyclic 2 0 1 [] [] [] rfl (by decide) ?_
  intro x hx y hy hxy hreach
  have hgx : exampleGraph x = [] := by
    have hx01 : x = 0 ∨ x = 1 := by
      have h2 : exampleGraph 2 = [0, 1] := rfl
      rw [h2] at hx
      rcases List.mem_cons.mp hx with rfl | hx
      · exact Or.inl rfl
      · exact Or.inr (List.mem_singleton.mp hx)
    rcases hx01 with rfl | rfl <;> rfl
  exact hxy (reach_singleton_of_no_inputs hgx y hreach).symm

/-- C7: an operator with at least one input (and no validation override)
yields an output operand whose element type and rank equal those of the
operator's first input. -/
theorem claim7_type_rank_propagation (opId : Nat) (kind : OpKind)
    (first : Operand) (rest : List Operand)
    (h : ((first :: rest).any (fun i => i.isError)) = false) :
    (primaryOutput opId (mkNode kind (first :: rest))).type = first.type ∧
      (primaryOutput opId (mkNode kind (first :: rest))).rank = first.rank ∧
      (primaryOutput opId (mkNode kind (first :: rest))).isError = false := by
  have hcond : ¬ ((first :: rest).any (fun i => i.isError) = true) := by
    rw [h]
    exact Bool.false_ne_true
  rw [mkNode, if_neg hcond]
  exact ⟨rfl, rfl, rfl⟩

/-- Witness for C7: a relu over a rank-3 Float16 operand propagates type
and rank. -/
theorem claim7_witness :
    (primaryOutput 1 (mkNode (OpKind.unary UnaryOpType.kRelu)
        [{ producer := some 0, type := MLOperandType.Float16, rank := 3, isError := false }])).type
        = MLOperandType.Float16 ∧
      (primaryOutput 1 (mkNode (OpKind.unary UnaryOpType.kRelu)
        [{ producer := some 0, type := MLOperandType.Float16, rank := 3, isError := false }])).rank
        = 3 ∧
      (primaryOutput 1 (mkNode (OpKind.unary UnaryOpType.kRelu)
        [{ producer := some 0, type := MLOperandType.Float16, rank := 3, isError := false }])).isError
        = false :=
  claim7_type_rank_propagation 1 (OpKind.unary UnaryOpType.kRelu)
    { producer := some 0, type := MLOperandType.Float16, rank := 3, isError := false } []
    (by decide)

/-- C10: the operand constructed for an operator with zero inputs has
element type Float32 and rank 0 at construction time. -/
theorem claim10_zero_input_defaults (opId : Nat) (kind : OpKind) :
    (primaryOutput opId (mkNode kind [])).type = MLOperandType.Float32 ∧
      (primaryOutput opId (mkNode kind [])).rank = 0 ∧
      mkOperandAttrs [] = (MLOperandType.Float32, 0) :=
  ⟨rfl, rfl, rfl⟩

/-- C6: softmax validation fails with the descriptive error exactly when
the input operand's rank is not 2, and the builder call returns a non-error
operand exactly when the rank is 2. -/
theorem claim6_softmax_rank_gate (σ : BuilderState) (input : Operand)
    (h : input.isError = false) :
    (validateNode (mkNode (OpKind.unary UnaryOpType.kSoftmax) [input]) =
        if input.rank ≠ 2 then some "Input dimensions is incorrect." else none) ∧
      ((GraphBuilder.softmax σ input).2.isError = false ↔ input.rank = 2) := by
  have hcond : ¬ (([input].any (fun i => i.isError)) = true) := by
    simp [h]
  have hnode : mkNode (OpKind.unary UnaryOpType.kSoftmax) [input] =
      { kind := OpKind.unary UnaryOpType.kSoftmax, inputs := [input], isError := false } := by
    rw [mkNode, if_neg hcond]
  have hval : validateNode (mkNode (OpKind.unary UnaryOpType.kSoftmax) [input]) =
      if input.rank ≠ 2 then some "Input dimensions is incorrect." else none := by
    rw [hnode]
    simp only [validateNode, unaryValidate, baseValidate, List.any_cons, List.any_nil, h,
      Bool.or_false, Bool.false_eq_true, if_false]
  refine ⟨hval, ?_⟩
  simp only [GraphBuilder.softmax, validateForOperand]
  by_cases hr : input.rank = 2
  · have hnone : validateNode (mkNode (OpKind.unary UnaryOpType.kSoftmax) [input]) = none := by
      rw [hval, if_neg (by rw [hr]; exact fun hc => hc rfl)]
    rw [hnone]
    constructor
    · intro _
      exact hr
    · intro _
      rw [hnode]
      rfl
  · have hsome : validateNode (mkNode (OpKind.unary UnaryOpType.kSoftmax) [input]) =
        some "Input dimensions is incorrect." := by
      rw [hval, if_pos hr]
    rw [hsome]
    constructor
    · intro hfalse
      have hne : (true : Bool) ≠ false := by decide
      exact absurd hfalse hne
    · intro h2
      exact absurd h2 hr

/-- Witness for C6: a non-error rank-3 operand fails the gate, a rank-2
operand passes. -/
theorem claim6_witness :
    (validateNode (mkNode (OpKind.unary UnaryOpType.kSoftmax)
        [{ producer := some 0, type := MLOperandType.Float32, rank := 3, isError := false }]) =
      if (3 : Nat) ≠ 2 then some "Input dimensions is incorrect." else none) ∧
      ((GraphBuilder.softmax ⟨[]⟩
        { producer := some 0, type := MLOperandType.Float32, rank := 3, isError := false }).2.isError
          = false ↔ (3 : Nat) = 2) :=
  claim6_softmax_rank_gate ⟨[]⟩
    { producer := some 0, type := MLOperandType.Float32, rank := 3, isError := false } rfl

/-- C8: `Build` called on a builder already in an error state, or with an
empty named-output set, returns an absent result and makes no backend call
at all: no backend graph is even created. -/
theorem claim8_build_guards (σ : BuilderState) (b : Bool)
    (named : List (String × Operand)) (fuel : Nat) :
    GraphBuilder.build σ true named fuel = (none, []) ∧
      GraphBuilder.build σ b [] fuel = (none, []) := by
  constructor
  · rw [GraphBuilder.build, if_pos rfl]
  · cases b
    · rw [GraphBuilder.build, if_neg Bool.false_ne_true, if_pos rfl]
    · rw [GraphBuilder.build, if_pos rfl]

theorem mkNode_kind (kind : OpKind) (inputs : List Operand) :
    (mkNode kind inputs).kind = kind := by
  rw [mkNode]
  split
  · rfl
  · rfl

/-- An error instance (no inputs) passes every `Validate()` in the model:
base validation is vacuous and the softmax gate never fires on an empty
input list, so the poisoned operator flows on to finalization. -/
theorem validateNode_error_instance (kind : OpKind) :
    validateNode { kind := kind, inputs := [], isError := true } = none := by
  cases kind with
  | unary t => cases t <;> rfl
  | _ => rfl

theorem validateForOperand_error (σ : BuilderState) (kind : OpKind)
    (inputs : List Operand) (h : inputs.any (fun i => i.isError) = true) :
    validateForOperand σ kind inputs =
      ({ ops := σ.ops ++ [{ kind := kind, inputs := [], isError := true }] },
        primaryOutput σ.ops.length { kind := kind, inputs := [], isError := true }) := by
  have hnode : mkNode kind inputs = { kind := kind, inputs := [], isError := true } := by
    rw [mkNode, if_pos h]
  simp only [validateForOperand, hnode, validateNode_error_instance]

theorem validateForOperand_no_clamp (σ : BuilderState) (kind : OpKind)
    (inputs : List Operand) (hk : kind.isClampKind = false) :
    ((validateForOperand σ kind inputs).1.ops.drop σ.ops.length).all
      (fun nd => !nd.kind.isClampKind) = true := by
  simp only [validateForOperand]
  cases hv : validateNode (mkNode kind inputs) with
  | some e =>
    simp only [List.drop_length]
    rfl
  | none =>
    simp only [List.drop_left]
    simp [mkNode_kind, hk]

theorem getD_append_length {α : Type} (l : List α) (a d : α) :
    (l ++ [a]).getD l.length d = a := by
  induction l with
  | nil => rfl
  | cons x l ih => simp [ih]

theorem topoLoop_empty_state (g : Nat → List Nat) (fuel : Nat) (done result : List Nat) :
    topoLoop g fuel ⟨[], done, result⟩ = some ⟨[], done, result⟩ := by
  cases fuel with
  | zero => rfl
  | succ fuel => rfl

/-- C2: a `Conv2d` or `BatchNorm` call whose options carry a clamp
activation descriptor constructs and validates the base operator, then (on
success) constructs a second, explicit clamp operator that consumes the
base operator's primary output and carries the clamp's own min/max options,
and returns the clamp operator's output; a non-clamp activation creates no
synthetic clamp node. -/
theorem claim2_clamp_fusion_rewrite (σ : BuilderState)
    (input filter mean variance : Operand) (co : ClampOptions) (act : Activation)
    (hi : input.isError = false) (hf : filter.isError = false)
    (hm : mean.isError = false) (hv : variance.isError = false)
    (hact : act.getFusedOperator ≠ FusedOperator.Clamp) :
    (GraphBuilder.conv2d σ input filter (some ⟨some (Activation.clamp co)⟩) =
      ({ ops := σ.ops ++
          [mkNode (OpKind.conv2d (some (Activation.clamp co))) [input, filter],
            mkNode (OpKind.clamp co)
              [primaryOutput σ.ops.length
                (mkNode (OpKind.conv2d (some (Activation.clamp co))) [input, filter])]] },
        primaryOutput (σ.ops.length + 1)
          (mkNode (OpKind.clamp co)
            [primaryOutput σ.ops.length
              (mkNode (OpKind.conv2d (some (Activation.clamp co))) [input, filter])]))) ∧
      (((GraphBuilder.conv2d σ input filter (some ⟨some act⟩)).1.ops.drop
          σ.ops.length).all (fun nd => !nd.kind.isClampKind) = true) ∧
      (GraphBuilder.batchNorm σ input mean variance (some ⟨some (Activation.clamp co)⟩) =
        ({ ops := σ.ops ++
            [mkNode (OpKind.batchNorm (some (Activation.clamp co))) [input, mean, variance],
              mkNode (OpKind.clamp co)
                [primaryOutput σ.ops.length
                  (mkNode (OpKind.batchNorm (some (Activation.clamp co)))
                    [input, mean, variance])]] },
          primaryOutput (σ.ops.length + 1)
            (mkNode (OpKind.clamp co)
              [primaryOutput σ.ops.length
                (mkNode (OpKind.batchNorm (some (Activation.clamp co)))
                  [input, mean, variance])]))) ∧
      (((GraphBuilder.batchNorm σ input mean variance (some ⟨some act⟩)).1.ops.drop
          σ.ops.length).all (fun nd => !nd.kind.isClampKind) = true) := by
  have hconvNode : mkNode (OpKind.conv2d (some (Activation.clamp co))) [input, filter] =
      { kind := OpKind.conv2d (some (Activation.clamp co)), inputs := [input, filter],
        isError := false } := by
    rw [mkNode, if_neg]
    simp [hi, hf]
  have hbnNode : mkNode (OpKind.batchNorm (some (Activation.clamp co)))
        [input, mean, variance] =
      { kind := OpKind.batchNorm (some (Activation.clamp co)),
        inputs := [input, mean, variance], isError := false } := by
    rw [mkNode, if_neg]
    simp [hi, hm, hv]
  have hvalconv : validateNode (mkNode (OpKind.conv2d (some (Activation.clamp co)))
      [input, filter]) = none := by
    rw [hconvNode]
    simp [validateNode, baseValidate, hi, hf]
  have hvalbn : validateNode (mkNode (OpKind.batchNorm (some (Activation.clamp co)))
      [input, mean, variance]) = none := by
    rw [hbnNode]
    simp [validateNode, baseValidate, hi, hm, hv]
  have hconvOut : (primaryOutput σ.ops.length
      (mkNode (OpKind.conv2d (some (Activation.clamp co))) [input, filter])).isError
        = false := by
    rw [hconvNode]
    rfl
  have hbnOut : (primaryOutput σ.ops.length
      (mkNode (OpKind.batchNorm (some (Activation.clamp co)))
        [input, mean, variance])).isError = false := by
    rw [hbnNode]
    rfl
  refine ⟨?_, ?_, ?_, ?_⟩
  · simp only [GraphBuilder.conv2d]
    rw [if_pos (show (Activation.clamp co).getFusedOperator = FusedOperator.Clamp from rfl),
      hvalconv]
    simp only [validateForOperand]
    have hclampNode : validateNode (mkNode
        (OpKind.clamp (Activation.clamp co).getClampOptions)
        [primaryOutput σ.ops.length
          (mkNode (OpKind.conv2d (some (Activation.clamp co))) [input, filter])]) = none := by
      rw [mkNode, if_neg (by simp [hconvOut])]
      simp [validateNode, baseValidate, hconvOut]
    rw [hclampNode]
    simp [List.append_assoc, Activation.getClampOptions]
  · simp only [GraphBuilder.conv2d]
    rw [if_neg hact]
    exact validateForOperand_no_clamp σ (OpKind.conv2d (some act)) [input, filter] rfl
  · simp only [GraphBuilder.batchNorm]
    rw [if_pos (show (Activation.clamp co).getFusedOperator = FusedOperator.Clamp from rfl),
      hvalbn]
    simp only [validateForOperand]
    have hclampNode : validateNode (mkNode
        (OpKind.clamp (Activation.clamp co).getClampOptions)
        [primaryOutput σ.ops.length
          (mkNode (OpKind.batchNorm (some (Activation.clamp co)))
            [input, mean, variance])]) = none := by
      rw [mkNode, if_neg (by simp [hbnOut])]
      simp [validateNode, baseValidate, hbnOut]
    rw [hclampNode]
    simp [List.append_assoc, Activation.getClampOptions]
  · simp only [GraphBuilder.batchNorm]
    rw [if_neg hact]
    exact validateForOperand_no_clamp σ (OpKind.batchNorm (some act))
      [input, mean, variance] rfl

/-- Witness for C2: a conv2d with clamp(0,6) activation materializes the
explicit clamp node and returns its output; a batch-norm with a relu
activation creates no clamp node. -/
theorem claim2_witness :
    (GraphBuilder.conv2d ⟨[]⟩ (wOperand 0) (wOperand 1)
        (some ⟨some (Activation.clamp ⟨0, 6⟩)⟩) =
      ({ ops := [mkNode (OpKind.conv2d (some (Activation.clamp ⟨0, 6⟩)))
            [wOperand 0, wOperand 1],
          mkNode (OpKind.clamp ⟨0, 6⟩)
            [primaryOutput 0 (mkNode (OpKind.conv2d (some (Activation.clamp ⟨0, 6⟩)))
              [wOperand 0, wOperand 1])]] },
        primaryOutput 1 (mkNode (OpKind.clamp ⟨0, 6⟩)
          [primaryOutput 0 (mkNode (OpKind.conv2d (some (Activation.clamp ⟨0, 6⟩)))
            [wOperand 0, wOperand 1])]))) ∧
      ((GraphBuilder.batchNorm ⟨[]⟩ (wOperand 0) (wOperand 2) (wOperand 3)
          (some ⟨some Activation.relu⟩)).1.ops.drop 0).all
        (fun nd => !nd.kind.isClampKind) = true :=
  ⟨(claim2_clamp_fusion_rewrite ⟨[]⟩ (wOperand 0) (wOperand 1) (wOperand 2) (wOperand 3)
      ⟨0, 6⟩ Activation.relu rfl rfl rfl rfl (by decide)).1,
    (claim2_clamp_fusion_rewrite ⟨[]⟩ (wOperand 0) (wOperand 1) (wOperand 2) (wOperand 3)
      ⟨0, 6⟩ Activation.relu rfl rfl rfl rfl (by decide)).2.2.2⟩

/-- C3: any construction call consuming an error operand returns an error
sentinel (including Conv2d and BatchNorm with any options), and a `Build`
call naming such a poisoned operand returns an absent result after creating
the empty backend graph but before any operator, output, finish or compile
call reaches the backend. -/
theorem claim3_error_poisoning (σ : BuilderState) (kind : OpKind) (inputs : List Operand)
    (input filter mean variance : Operand) (copts : Option Conv2dOptions)
    (bopts : Option BatchNormOptions) (nm : String) (fuel : Nat)
    (herr : inputs.any (fun i => i.isError) = true) (hin : input.isError = true) :
    (validateForOperand σ kind inputs).2.isError = true ∧
      (GraphBuilder.conv2d σ input filter copts).2.isError = true ∧
      (GraphBuilder.batchNorm σ input mean variance bopts).2.isError = true ∧
      GraphBuilder.build (validateForOperand σ kind inputs).1 false
          [(nm, (validateForOperand σ kind inputs).2)] (fuel + 1) =
        (none, [BackendCall.createGraph]) := by
  have hpair := validateForOperand_error σ kind inputs herr
  have herr2 : ∀ j : Operand, j.isError = true → ∀ k : Operand,
      ([j, k].any (fun i => i.isError)) = true := by
    intro j hj k
    simp [hj]
  have herr3 : ∀ j : Operand, j.isError = true → ∀ k l : Operand,
      ([j, k, l].any (fun i => i.isError)) = true := by
    intro j hj k l
    simp [hj]
  refine ⟨?_, ?_, ?_, ?_⟩
  · rw [hpair]
    rfl
  · rcases copts with _ | ⟨oact⟩
    · rw [GraphBuilder.conv2d, validateForOperand_error σ _ _ (herr2 input hin filter)]
      rfl
    · rcases oact with _ | act
      · rw [GraphBuilder.conv2d, validateForOperand_error σ _ _ (herr2 input hin filter)]
        rfl
      · simp only [GraphBuilder.conv2d]
        by_cases hc : act.getFusedOperator = FusedOperator.Clamp
        · rw [if_pos hc]
          have hnode : mkNode (OpKind.conv2d (some act)) [input, filter] =
              { kind := OpKind.conv2d (some act), inputs := [], isError := true } := by
            rw [mkNode, if_pos (herr2 input hin filter)]
          rw [hnode, validateNode_error_instance]
          have hpOut : (primaryOutput σ.ops.length
              { kind := OpKind.conv2d (some act), inputs := [], isError := true }).isError
                = true := rfl
          rw [validateForOperand_error _ _ _ (by simp [hpOut])]
          rfl
        · rw [if_neg hc, validateForOperand_error σ _ _ (herr2 input hin filter)]
          rfl
  · rcases bopts with _ | ⟨oact⟩
    · rw [GraphBuilder.batchNorm, validateForOperand_error σ _ _ (herr3 input hin mean variance)]
      rfl
    · rcases oact with _ | act
      · rw [GraphBuilder.batchNorm, validateForOperand_error σ _ _ (herr3 input hin mean variance)]
        rfl
      · simp only [GraphBuilder.batchNorm]
        by_cases hc : act.getFusedOperator = FusedOperator.Clamp
        · rw [if_pos hc]
          have hnode : mkNode (OpKind.batchNorm (some act)) [input, mean, variance] =
              { kind := OpKind.batchNorm (some act), inputs := [], isError := true } := by
            rw [mkNode, if_pos (herr3 input hin mean variance)]
          rw [hnode, validateNode_error_instance]
          have hpOut : (primaryOutput σ.ops.length
              { kind := OpKind.batchNorm (some act), inputs := [], isError := true }).isError
                = true := rfl
          rw [validateForOperand_error _ _ _ (by simp [hpOut])]
          rfl
        · rw [if_neg hc, validateForOperand_error σ _ _ (herr3 input hin mean variance)]
          rfl
  · rw [hpair]
    have hnodeAt : nodeAt ⟨σ.ops ++ [{ kind := kind, inputs := [], isError := true }]⟩
        σ.ops.length = { kind := kind, inputs := [], isError := true } := by
      rw [nodeAt]
      exact getD_append_length σ.ops _ defaultNode
    have hg : graphOf ⟨σ.ops ++ [{ kind := kind, inputs := [], isError := true }]⟩
        σ.ops.length = [] := by
      rw [graphOf, hnodeAt]
      rfl
    have hstep : topoStep (graphOf ⟨σ.ops ++ [{ kind := kind, inputs := [], isError := true }]⟩)
        ⟨[σ.ops.length], [], []⟩ = ⟨[], [σ.ops.length], [σ.ops.length]⟩ := by
      have h2 : (graphOf ⟨σ.ops ++ [{ kind := kind, inputs := [], isError := true }]⟩
          σ.ops.length).filter (fun d => decide (d ∉ ([] : List Nat))) = [] := by
        rw [hg]
        rfl
      rw [topoStep_of_add (List.not_mem_nil σ.ops.length) h2]
      rfl
    have hsort : TopologicalSort
        (graphOf ⟨σ.ops ++ [{ kind := kind, inputs := [], isError := true }]⟩)
        [σ.ops.length] (fuel + 1) = some [σ.ops.length] := by
      rw [TopologicalSort]
      have hloop : topoLoop
          (graphOf ⟨σ.ops ++ [{ kind := kind, inputs := [], isError := true }]⟩)
          (fuel + 1) ⟨[σ.ops.length], [], []⟩ = some ⟨[], [σ.ops.length], [σ.ops.length]⟩ := by
        rw [topoLoop, if_neg (List.cons_ne_nil σ.ops.length []), hstep, topoLoop_empty_state]
      have hrev : ([σ.ops.length] : List Nat).reverse = [σ.ops.length] := rfl
      rw [hrev, hloop]
      rfl
    rw [GraphBuilder.build, if_neg Bool.false_ne_true,
      if_neg (List.cons_ne_nil (nm, primaryOutput σ.ops.length
        { kind := kind, inputs := [], isError := true }) [])]
    have hroots : (([(nm, primaryOutput σ.ops.length
        { kind := kind, inputs := [], isError := true })].map (fun p => p.2)).filterMap
          (fun o => o.producer)) = [σ.ops.length] := rfl
    rw [hroots, hsort]
    have hadd : addAllOps ⟨σ.ops ++ [{ kind := kind, inputs := [], isError := true }]⟩
        [σ.ops.length] = (false, []) := by
      rw [addAllOps, if_pos]
      rw [hnodeAt]
    have hred : (({ ops := σ.ops ++ [{ kind := kind, inputs := [], isError := true }] },
        primaryOutput σ.ops.length { kind := kind, inputs := [], isError := true }) :
          BuilderState × Operand).1 =
        ⟨σ.ops ++ [{ kind := kind, inputs := [], isError := true }]⟩ := rfl
    rw [hred]
    simp only [hadd]
    rfl

/-- Witness for C3: softmax over a rank-3 input fails validation; a relu
over the resulting error sentinel is itself poisoned; Build over the
poisoned chain aborts with only the backend graph created. -/
theorem claim3_witness :
    (validateForOperand ⟨[]⟩ (OpKind.unary UnaryOpType.kRelu) [Operand.makeError]).2.isError
        = true ∧
      (GraphBuilder.conv2d ⟨[]⟩ Operand.makeError (wOperand 1) none).2.isError = true ∧
      (GraphBuilder.batchNorm ⟨[]⟩ Operand.makeError (wOperand 2) (wOperand 3)
        none).2.isError = true ∧
      GraphBuilder.build (validateForOperand ⟨[]⟩ (OpKind.unary UnaryOpType.kRelu)
          [Operand.makeError]).1 false
          [("out", (validateForOperand ⟨[]⟩ (OpKind.unary UnaryOpType.kRelu)
            [Operand.makeError]).2)] 5 =
        (none, [BackendCall.createGraph]) :=
  claim3_error_poisoning ⟨[]⟩ (OpKind.unary UnaryOpType.kRelu) [Operand.makeError]
    Operand.makeError (wOperand 1) (wOperand 2) (wOperand 3) none none "out" 4
    (by decide) (by decide)
